import Mathlib

/-!
Verification of the Rotman ETF-arbitrage trading engine against its
natural-language specification.

The development shallowly embeds the decision- and execution-level code of
the repository:

* `ETFArbitrage/strategy.py`   — fair value, edge and tender decision
  (`StrategyEngine.compute_fair`, `_book_spread_cad`,
  `_per_share_unwind_cost`, `evaluate_tender`);
* `ETFArbitrage/executor.py`   — the order slicer
  (`Executor.slice_and_execute`);
* `ETFArbitrage/trader.py`     — the gross-limit gate of `main_loop` and
  `compute_inventory_gross`;
* `ETFArbitrage/rit_client.py` — the retry loop of `RITClient._request`;
* `ETF Arbitrage/etf_arb_bot.py` — `place_sliced_orders`,
  `evaluate_and_maybe_accept_tender` and `unwind_inventory`.

Prices are embedded as rationals (the Python code computes with floats on
two-decimal prices; all claims here are about order and arithmetic
relations, not rounding).  Network calls are embedded as explicit oracles
(one boolean / response per call), and loops as fuel-indexed recursion in
which sufficiency of the fuel bound is itself proved.
-/

namespace ETFArbitrage

/-- Tender decision outcome of `StrategyEngine.evaluate_tender`
    (the `"decision"` key of the returned dict). -/
inductive Decision
  | ACCEPT
  | DECLINE
deriving DecidableEq, Repr

/-- One instrument quote as the strategy reads it from `/securities`:
    the `last`, `bid`, `ask` fields, each possibly absent. -/
structure Quote where
  last : Option ℚ := none
  bid  : Option ℚ := none
  ask  : Option ℚ := none
deriving Repr, DecidableEq

/-- Python truthiness fallback `x or d` for an optional float field:
    the field value when present and nonzero, otherwise the fallback
    (Python treats both `None` and `0.0` as falsy). -/
def orElseQ (x : Option ℚ) (d : ℚ) : ℚ :=
  match x with
  | some v => if v = 0 then d else v
  | none   => d

/-- The price-extraction chain of `StrategyEngine.compute_fair`:
    `float(q.get("last") or q.get("ask") or q.get("bid") or dflt)`. -/
def quotePx (q : Quote) (dflt : ℚ) : ℚ :=
  orElseQ q.last (orElseQ q.ask (orElseQ q.bid dflt))

/-- Result of `StrategyEngine.compute_fair`:
    `(fair_cad, fair_usd, ritc_usd, fx_rate)`. -/
structure FairView where
  fairCad : ℚ
  fairUsd : ℚ
  ritcUsd : ℚ
  fxRate  : ℚ
deriving Repr, DecidableEq

/-- `StrategyEngine.compute_fair` (strategy.py lines 60-77).
    `fair_cad = bull_px + bear_px`; `fair_usd = fair_cad / fx_rate`.
    The Python guard `if fx_rate else float("inf")` is unreachable because
    the FX extraction has nonzero default `1.0` (`quotePx_ne_zero`), so the
    division is written directly. -/
def computeFair (bull bear fx etf : Quote) : FairView :=
  let bullPx := quotePx bull 0
  let bearPx := quotePx bear 0
  let fxRate := quotePx fx 1
  let ritcUsd := quotePx etf 0
  let fairCad := bullPx + bearPx
  { fairCad := fairCad
    fairUsd := fairCad / fxRate
    ritcUsd := ritcUsd
    fxRate  := fxRate }

/-- config.py: `CONVERTER_COST_PER_SHARE = 1500.0 / CONVERTER_BATCH` (0.15 CAD). -/
def CONVERTER_COST_PER_SHARE : ℚ := 1500 / 10000

/-- config.py: `MIN_ABS_EDGE = 0.02`, the configured absolute edge floor. -/
def MIN_ABS_EDGE : ℚ := 2 / 100

/-- config.py: `ABS_BUFFER = 0.01`, the safety cushion above costs. -/
def ABS_BUFFER : ℚ := 1 / 100

/-- config.py: `MIN_EDGE_TO_CONSIDER = 0.00`. -/
def MIN_EDGE_TO_CONSIDER : ℚ := 0

/-- config.py: `BOOK_FALLBACK_SPREAD_CAD = 0.04`. -/
def BOOK_FALLBACK_SPREAD_CAD : ℚ := 4 / 100

/-- Top of the ETF order book as `_book_spread_cad` reads it: best bid and
    best ask prices, each possibly absent.  `none` for the whole book
    models the `get_security_book` call raising (the `except` branch). -/
structure BookTop where
  bestBid : Option ℚ := none
  bestAsk : Option ℚ := none
deriving Repr, DecidableEq

/-- `StrategyEngine._book_spread_cad` (strategy.py lines 79-89):
    `max(best_ask - best_bid, 0.0) * fx_rate`, with the fallback spread
    when either side of the book or the book itself is unavailable. -/
def bookSpreadCad (book : Option BookTop) (fxRate : ℚ) : ℚ :=
  match book with
  | none => BOOK_FALLBACK_SPREAD_CAD
  | some b =>
      match b.bestBid, b.bestAsk with
      | some bid, some ask => max (ask - bid) 0 * fxRate
      | _, _ => BOOK_FALLBACK_SPREAD_CAD

/-- `StrategyEngine._per_share_unwind_cost`: `spread_cad / 2.0 + 0.01`. -/
def perShareUnwindCost (spreadCad : ℚ) : ℚ :=
  spreadCad / 2 + 1 / 100

/-- Python `str.upper()` over the ASCII strings the venue uses. -/
def pyUpper (s : String) : String := ⟨s.data.map Char.toUpper⟩

/-- Python truthiness fallback `s or d` for an optional string field
    (the empty string is falsy). -/
def orElseStr (x : Option String) (d : String) : String :=
  match x with
  | some s => if s = "" then d else s
  | none   => d

/-- A tender offer as `evaluate_tender` reads it: `price`, `quantity`,
    and the optional `action` field (side). -/
structure Tender where
  price    : ℚ
  quantity : ℤ := 0
  action   : Option String := none
deriving Repr, DecidableEq

/-- Result of `StrategyEngine.evaluate_tender` (the keys of the returned
    dict that the claims are about). -/
structure TenderEval where
  decision        : Decision
  edgePerShareCad : ℚ
  unwindCostCad   : ℚ
  minNeededCad    : ℚ
  side            : String
deriving Repr, DecidableEq

/-- `StrategyEngine.evaluate_tender` (strategy.py lines 95-144).
    Side defaults to `"SELL"` via `(tender.get("action") or "SELL").upper()`;
    edge is `fair_usd - price` when the counterparty sells (we buy) and
    `price - fair_usd` otherwise, then converted to CAD; the decision is
    `ACCEPT` when `edge_cad >= min_needed and edge_cad >= MIN_EDGE_TO_CONSIDER`
    and `DECLINE` on both `elif` branches (they differ only in the logged
    reason). -/
def evaluateTender (bull bear fx etf : Quote) (t : Tender)
    (book : Option BookTop) : TenderEval :=
  let fv := computeFair bull bear fx etf
  let side := pyUpper (orElseStr t.action "SELL")
  let edgeUsd := if side = "SELL" then fv.fairUsd - t.price else t.price - fv.fairUsd
  let edgeCad := edgeUsd * fv.fxRate
  let spreadCad := bookSpreadCad book fv.fxRate
  let unwindCost := min (perShareUnwindCost spreadCad) CONVERTER_COST_PER_SHARE
  let minNeeded := max MIN_ABS_EDGE (unwindCost + ABS_BUFFER)
  let decision :=
    if minNeeded ≤ edgeCad ∧ MIN_EDGE_TO_CONSIDER ≤ edgeCad then
      Decision.ACCEPT
    else
      Decision.DECLINE
  { decision := decision
    edgePerShareCad := edgeCad
    unwindCostCad := unwindCost
    minNeededCad := minNeeded
    side := side }

/-- config.py: `DEFAULT_SLICE_SIZE = 2000`. -/
def DEFAULT_SLICE_SIZE : ℕ := 2000

/-- config.py: `MAX_ORDER_SIZE = 10000`. -/
def MAX_ORDER_SIZE : ℕ := 10000

/-- The `while remaining > 0` loop of `Executor.slice_and_execute`
    (executor.py lines 29-59), parameterized by the configured slice size
    `d` and order cap `mx` and by a per-iteration submission oracle `ok`
    (`ok k` is whether the `k`-th `post_order` call returns instead of
    raising).  Each iteration submits `clip = min(d, remaining, mx)`; a
    successful clip is appended to the results and deducted from
    `remaining`; an exception breaks the loop.  The order type chosen for
    the payload (passive limit at the NBBO versus market) does not affect
    this control flow, so only the clip accounting is embedded.  The loop
    is driven by fuel; `sliceAndExecute` supplies `|qty|` fuel, and the
    theorems prove that this much fuel always completes the loop.
    Returns (successful clips, final remaining, a-submission-failed). -/
def sliceLoop (d mx : ℕ) (ok : ℕ → Bool) : ℕ → ℕ → ℕ → List ℕ × ℕ × Bool
  | 0, remaining, _ => ([], remaining, false)
  | fuel + 1, remaining, k =>
      if remaining = 0 then ([], 0, false)
      else
        let clip := min d (min remaining mx)
        if ok k then
          let r := sliceLoop d mx ok fuel (remaining - clip) (k + 1)
          (clip :: r.1, r.2.1, r.2.2)
        else ([], remaining, true)

/-- `Executor.slice_and_execute`: `remaining = abs(int(qty))`, then the
    clip loop. -/
def sliceAndExecute (d mx : ℕ) (ok : ℕ → Bool) (qty : ℤ) : List ℕ × ℕ × Bool :=
  sliceLoop d mx ok qty.natAbs qty.natAbs 0

/-! Embedding of `ETFArbitrage/trader.py` (the gross-limit gate of
`main_loop` and `compute_inventory_gross`) and of the retry loop of
`RITClient._request` in `ETFArbitrage/rit_client.py`. -/

/-- config.py: `ETF_TICKER = "RITC"`. -/
def ETF_TICKER : String := "RITC"

/-- `compute_inventory_gross` (trader.py lines 15-21): sum of absolute
    positions, with the ETF weighted twice.  Securities are (ticker,
    signed position) rows of `/securities`. -/
def computeInventoryGross (securities : List (String × ℤ)) : ℤ :=
  securities.foldl
    (fun gross s => gross + |s.2| * (if s.1 = ETF_TICKER then 2 else 1)) 0

/-- A tender-resolving venue call issued by `main_loop`. -/
inductive VenueCall
  | declineTender (tid : ℤ)
  | acceptTender (tid : ℤ)
deriving DecidableEq, Repr

/-- The per-tender decision step of `main_loop` (trader.py lines 73-87):
    a non-`ACCEPT` evaluation is declined; an `ACCEPT` whose projected
    gross `gross + abs(qty) * 2` would breach the gross limit is declined
    (the limit guard); otherwise the tender is accepted. -/
def mainLoopTenderStep (decision : Decision) (tid qty gross grossLimit : ℤ) :
    VenueCall :=
  if decision ≠ Decision.ACCEPT then VenueCall.declineTender tid
  else if grossLimit < gross + |qty| * 2 then VenueCall.declineTender tid
  else VenueCall.acceptTender tid

/-- Classified failure raised by `RITClient._request`: `RITAuthError`,
    `RITRateLimit`, the hard server-error `RITError`, or the generic
    non-success `RITError`. -/
inductive RErr
  | auth
  | rateLimited
  | server
  | generic
deriving DecidableEq, Repr

/-- One HTTP response as `_request` classifies it: the status code, the
    parsed `Retry-After` header when present and integral, and the parsed
    body `wait` field when the body is JSON with such a field. -/
structure Resp where
  status     : ℕ
  retryAfter : Option ℤ := none
  bodyWait   : Option ℤ := none
deriving DecidableEq, Repr

/-- The server-advised wait of a 429 response (rit_client.py lines 42-53):
    the `Retry-After` header when present, else the body `wait` field,
    else 1. -/
def advisedWait (r : Resp) : ℤ :=
  match r.retryAfter with
  | some w => w
  | none => r.bodyWait.getD 1

/-- Observable outcome of one `_request` call: the returned-or-raised
    result, the sequence of sleeps performed, and the number of HTTP
    requests issued. -/
structure ReqTrace where
  result   : Except RErr Unit
  sleeps   : List ℚ
  requests : ℕ
deriving Repr

/-- The `while True` retry loop of `RITClient._request` (rit_client.py
    lines 25-68), with `resp i` the response to the `i`-th request
    (1-based, following the Python `attempt` counter) and `m` the
    configured `max_retries`.  2xx returns; 401 raises the auth error;
    429 computes the advised wait, raises the rate-limit error once
    `attempt > max_retries`, and otherwise sleeps exactly the advised wait
    and retries; 5xx raises once `attempt > max_retries` and otherwise
    sleeps the exponential backoff `0.5 * 2^(attempt-1)` and retries; any
    other status raises the generic error.  Fuel-driven; `ritRequest`
    supplies `m + 1` fuel, which the theorems show is always enough. -/
def requestLoop (m : ℕ) (resp : ℕ → Resp) : ℕ → ℕ → Option ReqTrace
  | 0, _ => none
  | fuel + 1, a0 =>
      let attempt := a0 + 1
      let r := resp attempt
      if 200 ≤ r.status ∧ r.status < 300 then
        some { result := Except.ok (), sleeps := [], requests := 1 }
      else if r.status = 401 then
        some { result := Except.error RErr.auth, sleeps := [], requests := 1 }
      else if r.status = 429 then
        if m < attempt then
          some { result := Except.error RErr.rateLimited, sleeps := [], requests := 1 }
        else
          (requestLoop m resp fuel attempt).map
            (fun tr =>
              { result := tr.result,
                sleeps := ((advisedWait r : ℤ) : ℚ) :: tr.sleeps,
                requests := tr.requests + 1 })
      else if 500 ≤ r.status ∧ r.status < 600 then
        if m < attempt then
          some { result := Except.error RErr.server, sleeps := [], requests := 1 }
        else
          (requestLoop m resp fuel attempt).map
            (fun tr =>
              { result := tr.result,
                sleeps := (1 / 2 : ℚ) * 2 ^ (attempt - 1) :: tr.sleeps,
                requests := tr.requests + 1 })
      else
        some { result := Except.error RErr.generic, sleeps := [], requests := 1 }

/-- `RITClient._request` as observed from outside: the loop starting at
    attempt 0 with fuel `max_retries + 1`. -/
def ritRequest (m : ℕ) (resp : ℕ → Resp) : Option ReqTrace :=
  requestLoop m resp (m + 1) 0

/-- The response schedule of the spec's rate-limit scenario: the first
    attempt is rate-limited with an advised wait of 2 time units, the
    retry succeeds. -/
def respScenario : ℕ → Resp :=
  fun i => if i = 1 then { status := 429, retryAfter := some 2 } else { status := 200 }

end ETFArbitrage

namespace EtfArbBot

/-! Embedding of `ETF Arbitrage/etf_arb_bot.py` (the single-file variant of
the engine): its slicer `place_sliced_orders`, its tender procedure
`evaluate_and_maybe_accept_tender` and its unwind loop `unwind_inventory`. -/

/-- etf_arb_bot.py: `MAX_ORDER = 10_000`. -/
def MAX_ORDER : ℕ := 10000

/-- etf_arb_bot.py: `FEE_MARKET_PER_SHARE = 0.02`. -/
def FEE_MARKET_PER_SHARE : ℚ := 2 / 100

/-- etf_arb_bot.py: `CONVERTER_BATCH = 10_000`. -/
def CONVERTER_BATCH : ℕ := 10000

/-- etf_arb_bot.py: `CONVERTER_COST_PER_SHARE = 1500.0 / 10_000` (0.15 CAD). -/
def CONVERTER_COST_PER_SHARE : ℚ := 1500 / 10000

/-- etf_arb_bot.py: `SAFETY_BUFFER = 0.01`. -/
def SAFETY_BUFFER : ℚ := 1 / 100

/-- etf_arb_bot.py: `MIN_EDGE_TO_CONSIDER = 0.03`. -/
def MIN_EDGE_TO_CONSIDER : ℚ := 3 / 100

/-- Order kind submitted by `post_order`: a passive limit clip or an
    aggressive (marketable) clip. -/
inductive OrderKind
  | limit
  | market
deriving DecidableEq, Repr

/-- One `post_order` submission made by `place_sliced_orders`: its kind,
    its clip size, and whether the call succeeded (returned a response)
    or failed (returned `None`). -/
structure Attempt where
  kind : OrderKind
  clip : ℕ
  ok   : Bool
deriving DecidableEq, Repr

/-- The `while remaining > 0` loop of `place_sliced_orders`
    (etf_arb_bot.py lines 236-261), parameterized by the order cap `mx`,
    by `limitFirst` (the Python condition
    `USE_LIMIT_FIRST and price_hint is not None`), and by per-iteration
    submission oracles `lok`/`mok` (whether the limit, respectively the
    market, `post_order` of iteration `i` succeeds).  Each iteration takes
    `clip = min(remaining, MAX_ORDER)`; a failed limit clip falls back to a
    market order for the same clip after the `LIMIT_TIMEOUT` pause; a
    failed market order aborts the loop with the warning
    `[WARN] Order failed for {ticker} {side} {clip}. Aborting slice.`.
    Returns (all submission attempts in order, the final value of the
    `remaining` variable, the clip quantity named in the abort warning, or
    `none` when no abort happened).  The warned clip is the ONLY quantity
    the abort path emits: the Python function's return type is `None`, so
    neither the remaining quantity nor the executed quantity is ever
    handed back to the caller. -/
def psoLoop (mx : ℕ) (limitFirst : Bool) (lok mok : ℕ → Bool) :
    ℕ → ℕ → ℕ → List Attempt × ℕ × Option ℕ
  | 0, rem, _ => ([], rem, none)
  | fuel + 1, rem, i =>
      if rem = 0 then ([], 0, none)
      else
        let clip := min rem mx
        if limitFirst then
          if lok i then
            let r := psoLoop mx limitFirst lok mok fuel (rem - clip) (i + 1)
            (⟨.limit, clip, true⟩ :: r.1, r.2)
          else if mok i then
            let r := psoLoop mx limitFirst lok mok fuel (rem - clip) (i + 1)
            (⟨.limit, clip, false⟩ :: ⟨.market, clip, true⟩ :: r.1, r.2)
          else
            ([⟨.limit, clip, false⟩, ⟨.market, clip, false⟩], rem, some clip)
        else
          if mok i then
            let r := psoLoop mx limitFirst lok mok fuel (rem - clip) (i + 1)
            (⟨.market, clip, true⟩ :: r.1, r.2)
          else
            ([⟨.market, clip, false⟩], rem, some clip)

/-- `place_sliced_orders`: `remaining = abs(int(total_qty))`, then the
    clip loop, with `|total_qty|` fuel (shown sufficient below). -/
def placeSlicedOrders (mx : ℕ) (limitFirst : Bool) (lok mok : ℕ → Bool)
    (totalQty : ℤ) : List Attempt × ℕ × Option ℕ :=
  psoLoop mx limitFirst lok mok totalQty.natAbs totalQty.natAbs 0

/-- The deterministic clip decomposition of a remaining quantity: the
    sequence of clips `min(remaining, mx)` the loop would submit from that
    state onward (fuel-driven like the loop itself). -/
def clipsOfAux (mx : ℕ) : ℕ → ℕ → List ℕ
  | 0, _ => []
  | fuel + 1, rem =>
      if rem = 0 then [] else min rem mx :: clipsOfAux mx fuel (rem - min rem mx)

/-- Clip decomposition of `rem` with cap `mx`. -/
def clipsOf (mx rem : ℕ) : List ℕ := clipsOfAux mx rem rem

/-- Total of the successfully executed clips of a list of attempts. -/
def execSum (l : List Attempt) : ℕ :=
  ((l.filter fun a => a.ok).map Attempt.clip).sum

/-- `per_share_unwind_cost_etf` (etf_arb_bot.py lines 216-222):
    half-spread plus half the market fee. -/
def perShareUnwindCostEtf (spreadCad : ℚ) : ℚ :=
  spreadCad / 2 + FEE_MARKET_PER_SHARE * (1 / 2)

/-- `should_use_converter` (etf_arb_bot.py lines 224-229): prefer the
    converter when the estimated order-execution unwind cost exceeds the
    converter cost per share. -/
def shouldUseConverter (spreadCad : ℚ) : Bool :=
  decide (CONVERTER_COST_PER_SHARE < perShareUnwindCostEtf spreadCad)

/-- A venue call made by the tender procedure. -/
inductive TenderCall
  | accept (tid : ℤ)
  | decline (tid : ℤ)
deriving DecidableEq, Repr

/-- The normalized tender fields produced by `tender_fields`
    (etf_arb_bot.py lines 196-214): id, ticker, price, quantity and side
    (already upper-cased, defaulted to `"SELL"` when absent). -/
structure TenderFields where
  tid      : ℤ
  tkr      : String
  price    : ℚ
  quantity : ℤ
  side     : String
deriving DecidableEq, Repr

/-- `evaluate_and_maybe_accept_tender` (etf_arb_bot.py lines 290-334).
    `fvCad`, `fx` and `spreadCad` are the values obtained upstream from
    `fair_value_and_edge` and `estimate_spread_cad`; `acceptOk` is whether
    the `accept_tender` POST succeeds (it is wrapped in try/except).
    Returns (accepted?, venue calls issued).  A tender whose ticker is not
    `"RITC"` is ignored with `return False` and no venue call (the
    `# Case is about RITC tenders; ignore others` branch). -/
def evaluateAndMaybeAcceptTender (fvCad fx spreadCad : ℚ) (t : TenderFields)
    (acceptOk : Bool) : Bool × List TenderCall :=
  if t.tkr ≠ "RITC" then (false, [])
  else
    let tenderCad := t.price * fx
    let edge := if t.side = "SELL" then fvCad - tenderCad else tenderCad - fvCad
    let unwindCost := min (perShareUnwindCostEtf spreadCad) CONVERTER_COST_PER_SHARE
    if edge < 0 then (false, [TenderCall.decline t.tid])
    else
      let minNeeded := max MIN_EDGE_TO_CONSIDER (unwindCost + SAFETY_BUFFER)
      if minNeeded ≤ edge then
        if acceptOk then (true, [TenderCall.accept t.tid])
        else (false, [TenderCall.accept t.tid])
      else (false, [TenderCall.decline t.tid])

/-- The `while todo >= CONVERTER_BATCH` loop of `unwind_inventory`
    (etf_arb_bot.py lines 385-397), parameterized by the batch size and a
    per-attempt oracle `convOk` (whether the `try_convert` call of attempt
    `k` succeeds).  After each successful conversion the code re-reads the
    live position from `/securities`; the venue is modelled as applying
    exactly one conversion batch per successful call, so the refreshed
    `todo = abs(pos)` is the previous `todo` minus one batch.  A failed
    conversion breaks the loop.  Fuel-driven; `todo` fuel is shown
    sufficient.  Returns (number of successful conversions, residual). -/
def unwindConvLoop (batch : ℕ) (convOk : ℕ → Bool) : ℕ → ℕ → ℕ → ℕ × ℕ
  | 0, todo, k => (k, todo)
  | fuel + 1, todo, k =>
      if batch ≤ todo then
        if convOk k then unwindConvLoop batch convOk fuel (todo - batch) (k + 1)
        else (k, todo)
      else (k, todo)

/-- The conversion-preferred part of `unwind_inventory` (etf_arb_bot.py
    lines 347-402): on a zero position, return immediately; when the
    unwind-cost comparison prefers the converter, run conversion blocks
    while at least one batch remains and a conversion keeps succeeding,
    then pass any nonzero residual to `place_sliced_orders`; otherwise
    pass the whole position to `place_sliced_orders` directly.
    Returns (conversions performed, quantity handed to the slicer). -/
def unwindInventory (spreadCad : ℚ) (convOk : ℕ → Bool) (pos : ℤ) : ℕ × ℕ :=
  if pos = 0 then (0, 0)
  else if shouldUseConverter spreadCad then
    unwindConvLoop CONVERTER_BATCH convOk pos.natAbs pos.natAbs 0
  else (0, pos.natAbs)

end EtfArbBot

namespace ETFArbitrage

/-- `orElseQ` yields a nonzero value whenever its fallback is nonzero. -/
theorem orElseQ_ne_zero (x : Option ℚ) (d : ℚ) (hd : d ≠ 0) :
    orElseQ x d ≠ 0 := by
  cases x with
  | none => simpa [orElseQ] using hd
  | some v =>
      by_cases hv : v = 0 <;> simp [orElseQ, hv, hd]

/-- `quotePx` yields a nonzero value whenever its default is nonzero; in
    particular the FX rate extracted with default `1.0` is never zero, so
    the `if fx_rate` zero-guard in `compute_fair` can never select its
    `float("inf")` branch. -/
theorem quotePx_ne_zero (q : Quote) (d : ℚ) (hd : d ≠ 0) :
    quotePx q d ≠ 0 :=
  orElseQ_ne_zero _ _ (orElseQ_ne_zero _ _ (orElseQ_ne_zero _ _ hd))

/-- Uppercasing fixes the venue's already-uppercase side strings. -/
theorem pyUpper_SELL : pyUpper "SELL" = "SELL" := by decide

/-- The decision field is exactly the guarded comparison of the edge with
    the minimum required edge, as in the Python source. -/
theorem evaluateTender_decision_eq (bull bear fx etf : Quote) (t : Tender)
    (book : Option BookTop) :
    (evaluateTender bull bear fx etf t book).decision
      = if (evaluateTender bull bear fx etf t book).minNeededCad
            ≤ (evaluateTender bull bear fx etf t book).edgePerShareCad
          ∧ MIN_EDGE_TO_CONSIDER
            ≤ (evaluateTender bull bear fx etf t book).edgePerShareCad
        then Decision.ACCEPT else Decision.DECLINE := rfl

/-- The minimum required edge is the configured floor joined with the
    effective unwind cost plus the safety buffer. -/
theorem evaluateTender_minNeeded_eq (bull bear fx etf : Quote) (t : Tender)
    (book : Option BookTop) :
    (evaluateTender bull bear fx etf t book).minNeededCad
      = max MIN_ABS_EDGE
          ((evaluateTender bull bear fx etf t book).unwindCostCad + ABS_BUFFER) := rfl

/-- The decision rule of `evaluate_tender`, over an abstract minimum edge
    that is at least the configured floor: the extra conjunct
    `edge >= MIN_EDGE_TO_CONSIDER` is redundant since
    `MIN_EDGE_TO_CONSIDER = 0 < MIN_ABS_EDGE`. -/
theorem decisionRule_accept_iff (mn e : ℚ) (hmn : MIN_ABS_EDGE ≤ mn) :
    ((if mn ≤ e ∧ MIN_EDGE_TO_CONSIDER ≤ e then Decision.ACCEPT else Decision.DECLINE)
        = Decision.ACCEPT) ↔ mn ≤ e := by
  constructor
  · intro h
    by_cases hc : mn ≤ e ∧ MIN_EDGE_TO_CONSIDER ≤ e
    · exact hc.1
    · rw [if_neg hc] at h; cases h
  · intro h
    have h2 : MIN_EDGE_TO_CONSIDER ≤ e := by
      refine le_trans ?_ (le_trans hmn h)
      norm_num [MIN_EDGE_TO_CONSIDER, MIN_ABS_EDGE]
    rw [if_pos ⟨h, h2⟩]

/-- C1: for every tender offer evaluated by `evaluate_tender`, the decision
    is `ACCEPT` if and only if the per-share edge in the common (CAD)
    currency is at least `max(MIN_ABS_EDGE, effective unwind cost + ABS_BUFFER)`,
    and every non-`ACCEPT` decision is `DECLINE`. -/
theorem evaluateTender_accept_iff (bull bear fx etf : Quote) (t : Tender)
    (book : Option BookTop) :
    ((evaluateTender bull bear fx etf t book).decision = Decision.ACCEPT
      ↔ max MIN_ABS_EDGE
            ((evaluateTender bull bear fx etf t book).unwindCostCad + ABS_BUFFER)
          ≤ (evaluateTender bull bear fx etf t book).edgePerShareCad)
    ∧ ((evaluateTender bull bear fx etf t book).decision ≠ Decision.ACCEPT
      → (evaluateTender bull bear fx etf t book).decision = Decision.DECLINE) := by
  constructor
  · rw [evaluateTender_decision_eq, evaluateTender_minNeeded_eq]
    exact decisionRule_accept_iff _ _ (le_max_left _ _)
  · intro h
    rcases hd : (evaluateTender bull bear fx etf t book).decision with _ | _
    · exact absurd hd h
    · rfl

/-- Witness for C1: a concrete offer (fair value 25 USD, offer 19.5 USD,
    counterparty sells, FX 1) clears the threshold and is accepted. -/
theorem evaluateTender_accept_iff_witness :
    (evaluateTender { last := some 10 } { last := some 15 } { last := some 1 }
        { last := some 24 } { price := 39/2, quantity := 100 } none).decision
      = Decision.ACCEPT := by
  have h := (evaluateTender_accept_iff { last := some 10 } { last := some 15 }
      { last := some 1 } { last := some 24 } { price := 39/2, quantity := 100 } none).1
  refine h.mpr ?_
  norm_num [evaluateTender, computeFair, quotePx, orElseQ, orElseStr,
    pyUpper_SELL, bookSpreadCad, perShareUnwindCost, MIN_ABS_EDGE, ABS_BUFFER,
    CONVERTER_COST_PER_SHARE, BOOK_FALLBACK_SPREAD_CAD]

/-- C6: a tender whose computed per-share edge is negative is always
    declined by `evaluate_tender`. -/
theorem evaluateTender_negative_edge_declines (bull bear fx etf : Quote)
    (t : Tender) (book : Option BookTop)
    (h : (evaluateTender bull bear fx etf t book).edgePerShareCad < 0) :
    (evaluateTender bull bear fx etf t book).decision = Decision.DECLINE := by
  rw [evaluateTender_decision_eq]
  refine if_neg ?_
  rintro ⟨h1, -⟩
  have h2 : MIN_ABS_EDGE ≤ (evaluateTender bull bear fx etf t book).edgePerShareCad := by
    refine le_trans ?_ h1
    rw [evaluateTender_minNeeded_eq]
    exact le_max_left _ _
  have h3 : (0 : ℚ) < MIN_ABS_EDGE := by norm_num [MIN_ABS_EDGE]
  linarith

/-- Witness for C6: a concrete tender (fair value 25 USD, offer price 30 USD,
    counterparty sells) has negative edge and is declined. -/
theorem evaluateTender_negative_edge_declines_witness :
    (evaluateTender { last := some 10 } { last := some 15 } { last := some 1 }
        { last := some 24 } { price := 30, quantity := 100 } none).edgePerShareCad < 0
    ∧ (evaluateTender { last := some 10 } { last := some 15 } { last := some 1 }
        { last := some 24 } { price := 30, quantity := 100 } none).decision
        = Decision.DECLINE :=
  ⟨by norm_num [evaluateTender, computeFair, quotePx, orElseQ, orElseStr, pyUpper_SELL],
   evaluateTender_negative_edge_declines _ _ _ _ _ _
     (by norm_num [evaluateTender, computeFair, quotePx, orElseQ, orElseStr, pyUpper_SELL])⟩

/-- C7: for every set of quotes, the fair value of the composite in its own
    (USD) quote currency is the CAD sum of the constituent prices divided
    by the FX rate; the CAD constituent sum does not depend on the FX
    quote, while the converted USD fair value does whenever the sum is
    nonzero and the rates differ. -/
theorem computeFair_sum_and_fx (bull bear fx fx' etf : Quote)
    (hne : quotePx fx 1 ≠ quotePx fx' 1)
    (hsum : quotePx bull 0 + quotePx bear 0 ≠ 0) :
    (computeFair bull bear fx etf).fairCad = quotePx bull 0 + quotePx bear 0
    ∧ (computeFair bull bear fx etf).fairUsd
        = (computeFair bull bear fx etf).fairCad / (computeFair bull bear fx etf).fxRate
    ∧ (computeFair bull bear fx etf).fairCad = (computeFair bull bear fx' etf).fairCad
    ∧ (computeFair bull bear fx etf).fairUsd ≠ (computeFair bull bear fx' etf).fairUsd := by
  refine ⟨rfl, rfl, rfl, ?_⟩
  have hfx : quotePx fx 1 ≠ 0 := quotePx_ne_zero fx 1 one_ne_zero
  have hfx' : quotePx fx' 1 ≠ 0 := quotePx_ne_zero fx' 1 one_ne_zero
  simp only [computeFair]
  intro heq
  rw [div_eq_div_iff hfx hfx'] at heq
  exact hne (mul_left_cancel₀ hsum heq).symm

/-- Witness for C7 at concrete quotes (constituents 10 and 15 CAD, FX rates
    2 and 5 CAD/USD). -/
theorem computeFair_sum_and_fx_witness :
    (computeFair { last := some 10 } { last := some 15 } { last := some 2 }
        { last := some 20 }).fairCad
        = quotePx { last := some 10 } 0 + quotePx { last := some 15 } 0
    ∧ (computeFair { last := some 10 } { last := some 15 } { last := some 2 }
        { last := some 20 }).fairUsd
        = (computeFair { last := some 10 } { last := some 15 } { last := some 2 }
            { last := some 20 }).fairCad
          / (computeFair { last := some 10 } { last := some 15 } { last := some 2 }
              { last := some 20 }).fxRate
    ∧ (computeFair { last := some 10 } { last := some 15 } { last := some 2 }
        { last := some 20 }).fairCad
        = (computeFair { last := some 10 } { last := some 15 } { last := some 5 }
            { last := some 20 }).fairCad
    ∧ (computeFair { last := some 10 } { last := some 15 } { last := some 2 }
        { last := some 20 }).fairUsd
        ≠ (computeFair { last := some 10 } { last := some 15 } { last := some 5 }
            { last := some 20 }).fairUsd :=
  computeFair_sum_and_fx _ _ _ _ _
    (by norm_num [quotePx, orElseQ]) (by norm_num [quotePx, orElseQ])

/-- Accounting invariant of the slicer loop: submitted clips plus the final
    remaining quantity always equal the initial remaining quantity. -/
theorem sliceLoop_sum_add_remaining (d mx : ℕ) (ok : ℕ → Bool) :
    ∀ (fuel rem k : ℕ),
      (sliceLoop d mx ok fuel rem k).1.sum + (sliceLoop d mx ok fuel rem k).2.1 = rem := by
  intro fuel
  induction fuel with
  | zero => intro rem k; simp [sliceLoop]
  | succ fuel ih =>
      intro rem k
      by_cases h0 : rem = 0
      · simp [sliceLoop, h0]
      · by_cases hok : ok k = true
        · have hclip : min d (min rem mx) ≤ rem := le_trans (min_le_right _ _) (min_le_left _ _)
          have := ih (rem - min d (min rem mx)) (k + 1)
          simp only [sliceLoop, h0, if_neg, hok, if_true, List.sum_cons, if_false]
          omega
        · simp [sliceLoop, h0, hok]

/-- Every clip the slicer loop submits is bounded by both the slice size
    and the order cap. -/
theorem sliceLoop_clip_le (d mx : ℕ) (ok : ℕ → Bool) :
    ∀ (fuel rem k : ℕ), ∀ c ∈ (sliceLoop d mx ok fuel rem k).1, c ≤ d ∧ c ≤ mx := by
  intro fuel
  induction fuel with
  | zero => intro rem k c hc; simp [sliceLoop] at hc
  | succ fuel ih =>
      intro rem k c hc
      by_cases h0 : rem = 0
      · simp [sliceLoop, h0] at hc
      · by_cases hok : ok k = true
        · simp only [sliceLoop, h0, if_neg, hok, if_true, List.mem_cons, if_false] at hc
          rcases hc with hc | hc
          · subst hc
            exact ⟨min_le_left _ _, le_trans (min_le_right _ _) (min_le_right _ _)⟩
          · exact ih _ _ c hc
        · simp [sliceLoop, h0, hok] at hc

/-- With a positive slice size and order cap, every submitted clip carries
    at least one share. -/
theorem sliceLoop_clip_pos (d mx : ℕ) (hd : 1 ≤ d) (hmx : 1 ≤ mx) (ok : ℕ → Bool) :
    ∀ (fuel rem k : ℕ), ∀ c ∈ (sliceLoop d mx ok fuel rem k).1, 1 ≤ c := by
  intro fuel
  induction fuel with
  | zero => intro rem k c hc; simp [sliceLoop] at hc
  | succ fuel ih =>
      intro rem k c hc
      by_cases h0 : rem = 0
      · simp [sliceLoop, h0] at hc
      · by_cases hok : ok k = true
        · simp only [sliceLoop, h0, if_neg, hok, if_true, List.mem_cons, if_false] at hc
          rcases hc with hc | hc
          · subst hc; omega
          · exact ih _ _ c hc
        · simp [sliceLoop, h0, hok] at hc

/-- With positive slice size and order cap, fuel equal to the remaining
    quantity completes the loop: if no submission failed, the final
    remaining quantity is zero. -/
theorem sliceLoop_no_fail_done (d mx : ℕ) (hd : 1 ≤ d) (hmx : 1 ≤ mx) (ok : ℕ → Bool) :
    ∀ (fuel rem k : ℕ), rem ≤ fuel →
      (sliceLoop d mx ok fuel rem k).2.2 = false → (sliceLoop d mx ok fuel rem k).2.1 = 0 := by
  intro fuel
  induction fuel with
  | zero => intro rem k hle _; simp [sliceLoop]; omega
  | succ fuel ih =>
      intro rem k hle hfl
      by_cases h0 : rem = 0
      · simp [sliceLoop, h0]
      · by_cases hok : ok k = true
        · have hclip : 1 ≤ min d (min rem mx) := by omega
          simp only [sliceLoop, h0, if_neg, hok, if_true, if_false] at hfl ⊢
          exact ih (rem - min d (min rem mx)) (k + 1) (by omega) hfl
        · simp [sliceLoop, h0, hok] at hfl

/-- When every submission succeeds, sufficient fuel makes the loop run to
    completion without the failure flag. -/
theorem sliceLoop_all_ok (d mx : ℕ) (hd : 1 ≤ d) (hmx : 1 ≤ mx)
    (ok : ℕ → Bool) (hok : ∀ j, ok j = true) :
    ∀ (fuel rem k : ℕ), rem ≤ fuel →
      (sliceLoop d mx ok fuel rem k).2.1 = 0 ∧ (sliceLoop d mx ok fuel rem k).2.2 = false := by
  intro fuel
  induction fuel with
  | zero => intro rem k hle; simp [sliceLoop]; omega
  | succ fuel ih =>
      intro rem k hle
      by_cases h0 : rem = 0
      · simp [sliceLoop, h0]
      · have hclip : 1 ≤ min d (min rem mx) := by omega
        simp only [sliceLoop, h0, if_neg, hok k, if_true, if_false]
        exact ih (rem - min d (min rem mx)) (k + 1) (by omega)

/-- When every submission succeeds and the slice size does not exceed the
    order cap, the loop submits exactly `⌈rem / d⌉` clips. -/
theorem sliceLoop_all_ok_length (d mx : ℕ) (hd : 1 ≤ d) (hdmx : d ≤ mx)
    (ok : ℕ → Bool) (hok : ∀ j, ok j = true) :
    ∀ (fuel rem k : ℕ), rem ≤ fuel →
      (sliceLoop d mx ok fuel rem k).1.length = (rem + d - 1) / d := by
  intro fuel
  induction fuel with
  | zero =>
      intro rem k hle
      have h0 : rem = 0 := by omega
      subst h0
      simp only [sliceLoop, List.length_nil]
      exact (Nat.div_eq_of_lt (by omega)).symm
  | succ fuel ih =>
      intro rem k hle
      by_cases h0 : rem = 0
      · subst h0
        simp only [sliceLoop, if_true, List.length_nil, if_pos rfl]
        exact (Nat.div_eq_of_lt (by omega)).symm
      · have hclip : min d (min rem mx) = min d rem := by omega
        simp only [sliceLoop, h0, if_neg, hok k, if_true, if_false, List.length_cons]
        rw [hclip, ih (rem - min d rem) (k + 1) (by omega)]
        by_cases hcase : rem ≤ d
        · have h1 : min d rem = rem := by omega
          rw [h1]
          have hl : (rem - rem + d - 1) / d = 0 := Nat.div_eq_of_lt (by omega)
          have hr : (rem + d - 1) / d = 1 :=
            Nat.div_eq_of_lt_le (by omega) (by omega)
          omega
        · have h1 : min d rem = d := by omega
          rw [h1]
          have h2 : rem - d + d - 1 = (rem - d - 1) + d := by omega
          have h3 : rem + d - 1 = (rem - 1) + d := by omega
          rw [h2, h3, Nat.add_div_right _ (by omega), Nat.add_div_right _ (by omega)]
          have h4 : rem - 1 = (rem - d - 1) + d := by omega
          rw [h4, Nat.add_div_right _ (by omega)]

/-- C10: for every integer quantity (positive, zero or negative), supplying
    `slice_and_execute` with `|qty|` loop iterations of fuel is always
    enough: when no submission fails the remaining quantity reaches zero;
    every submitted clip removes at least one share; the clips plus the
    final remainder account exactly for `|qty|`; and the loop runs at most
    `|qty|` iterations. -/
theorem sliceAndExecute_terminates (d mx : ℕ) (hd : 1 ≤ d) (hmx : 1 ≤ mx)
    (ok : ℕ → Bool) (qty : ℤ) :
    ((sliceAndExecute d mx ok qty).2.2 = false → (sliceAndExecute d mx ok qty).2.1 = 0)
    ∧ (∀ c ∈ (sliceAndExecute d mx ok qty).1, 1 ≤ c)
    ∧ ((sliceAndExecute d mx ok qty).1.sum + (sliceAndExecute d mx ok qty).2.1 = qty.natAbs)
    ∧ ((sliceAndExecute d mx ok qty).1.length ≤ qty.natAbs) := by
  refine ⟨sliceLoop_no_fail_done d mx hd hmx ok _ _ _ le_rfl,
    sliceLoop_clip_pos d mx hd hmx ok _ _ _, sliceLoop_sum_add_remaining d mx ok _ _ _, ?_⟩
  have h1 := List.length_le_sum_of_one_le (sliceAndExecute d mx ok qty).1
    (sliceLoop_clip_pos d mx hd hmx ok _ _ _)
  have h2 := sliceLoop_sum_add_remaining d mx ok qty.natAbs qty.natAbs 0
  simp only [sliceAndExecute] at h1 ⊢
  omega

/-- Witness for C10: with slice size 2000 and cap 10000, a request for
    -4500 shares whose second submission fails executes one 2000-share
    clip, stops, and leaves 2500 unexecuted. -/
theorem sliceAndExecute_terminates_witness :
    (((sliceAndExecute 2000 10000 (fun k => decide (k < 1)) (-4500)).2.2 = false →
        (sliceAndExecute 2000 10000 (fun k => decide (k < 1)) (-4500)).2.1 = 0)
      ∧ (∀ c ∈ (sliceAndExecute 2000 10000 (fun k => decide (k < 1)) (-4500)).1, 1 ≤ c)
      ∧ ((sliceAndExecute 2000 10000 (fun k => decide (k < 1)) (-4500)).1.sum
          + (sliceAndExecute 2000 10000 (fun k => decide (k < 1)) (-4500)).2.1
          = (-4500 : ℤ).natAbs)
      ∧ ((sliceAndExecute 2000 10000 (fun k => decide (k < 1)) (-4500)).1.length
          ≤ (-4500 : ℤ).natAbs))
    ∧ sliceAndExecute 2000 10000 (fun k => decide (k < 1)) (-4500) = ([2000], 2500, true) :=
  ⟨sliceAndExecute_terminates 2000 10000 (by decide) (by decide) _ _, rfl⟩

/-- C5: for a positive quantity `qty` with slice size `d` (at most the
    order cap `mx`), in the absence of submission failures the slicer
    submits exactly `⌈qty / d⌉` clips, each of at most `d` shares, summing
    exactly to `qty`; and no submitted clip ever exceeds the order cap,
    for any oracle and any requested quantity. -/
theorem sliceAndExecute_clip_count (d mx : ℕ) (hd : 1 ≤ d) (hdmx : d ≤ mx)
    (qty : ℤ) (_hq : 0 < qty) :
    ((sliceAndExecute d mx (fun _ => true) qty).1.length = (qty.natAbs + d - 1) / d)
    ∧ (∀ c ∈ (sliceAndExecute d mx (fun _ => true) qty).1, c ≤ d)
    ∧ ((sliceAndExecute d mx (fun _ => true) qty).1.sum = qty.natAbs)
    ∧ (∀ (ok : ℕ → Bool) (q : ℤ), ∀ c ∈ (sliceAndExecute d mx ok q).1, c ≤ mx) := by
  have hmx : 1 ≤ mx := le_trans hd hdmx
  refine ⟨sliceLoop_all_ok_length d mx hd hdmx _ (fun _ => rfl) _ _ _ le_rfl, ?_, ?_, ?_⟩
  · intro c hc
    exact (sliceLoop_clip_le d mx _ _ _ _ c hc).1
  · have h1 := sliceLoop_sum_add_remaining d mx (fun _ => true) qty.natAbs qty.natAbs 0
    have h2 := (sliceLoop_all_ok d mx hd hmx _ (fun _ => rfl) qty.natAbs qty.natAbs 0 le_rfl).1
    simp only [sliceAndExecute]
    omega
  · intro ok q c hc
    exact (sliceLoop_clip_le d mx ok _ _ _ c hc).2

/-- Witness for C5: slicing 5000 shares with slice size 2000 and cap 10000
    produces the three clips 2000, 2000, 1000. -/
theorem sliceAndExecute_clip_count_witness :
    (((sliceAndExecute 2000 10000 (fun _ => true) 5000).1.length
        = ((5000 : ℤ).natAbs + 2000 - 1) / 2000)
      ∧ (∀ c ∈ (sliceAndExecute 2000 10000 (fun _ => true) 5000).1, c ≤ 2000)
      ∧ ((sliceAndExecute 2000 10000 (fun _ => true) 5000).1.sum = (5000 : ℤ).natAbs)
      ∧ (∀ (ok : ℕ → Bool) (q : ℤ),
          ∀ c ∈ (sliceAndExecute 2000 10000 ok q).1, c ≤ 10000))
    ∧ sliceAndExecute 2000 10000 (fun _ => true) 5000 = ([2000, 2000, 1000], 0, false) :=
  ⟨sliceAndExecute_clip_count 2000 10000 (by decide) (by decide) 5000 (by decide), rfl⟩

/-- C9: even when the tender evaluation says `ACCEPT`, `main_loop` declines
    the tender whenever the current gross inventory plus twice the offer
    quantity exceeds the gross limit, and the accept call is issued exactly
    when the evaluation accepted and the projected gross stays within the
    limit. -/
theorem mainLoopTenderStep_gross_guard (decision : Decision)
    (tid qty grossLimit : ℤ) (securities : List (String × ℤ)) :
    (decision = Decision.ACCEPT →
      grossLimit < computeInventoryGross securities + |qty| * 2 →
      mainLoopTenderStep decision tid qty (computeInventoryGross securities) grossLimit
        = VenueCall.declineTender tid)
    ∧ (mainLoopTenderStep decision tid qty (computeInventoryGross securities) grossLimit
          = VenueCall.acceptTender tid
        ↔ decision = Decision.ACCEPT
          ∧ computeInventoryGross securities + |qty| * 2 ≤ grossLimit) := by
  constructor
  · intro hd hover
    simp only [mainLoopTenderStep, hd, ne_eq, not_true_eq_false, if_false,
      ite_false]
    rw [if_pos hover]
  · constructor
    · intro h
      simp only [mainLoopTenderStep] at h
      by_cases h1 : decision = Decision.ACCEPT
      · rw [if_neg (not_not_intro h1)] at h
        by_cases h2 : grossLimit < computeInventoryGross securities + |qty| * 2
        · rw [if_pos h2] at h
          cases h
        · rw [if_neg h2] at h
          exact ⟨h1, not_lt.mp h2⟩
      · rw [if_pos h1] at h
        cases h
    · rintro ⟨hd, hle⟩
      simp only [mainLoopTenderStep, hd, ne_eq, not_true_eq_false, if_false,
        ite_false]
      rw [if_neg (not_lt.mpr hle)]

/-- Witness for C9: gross 185000 (90000 ETF shares weighted twice plus
    5000), offer of 10000 shares, limit 200000: the projected gross 205000
    breaches the limit and the tender is declined despite the `ACCEPT`
    evaluation. -/
theorem mainLoopTenderStep_gross_guard_witness :
    mainLoopTenderStep Decision.ACCEPT 3 10000
        (computeInventoryGross [("RITC", 90000), ("BULL", 5000)]) 200000
      = VenueCall.declineTender 3 :=
  (mainLoopTenderStep_gross_guard Decision.ACCEPT 3 10000 200000
      [("RITC", 90000), ("BULL", 5000)]).1 rfl (by decide)

/-- After `k ≤ m` rate-limited responses followed by a success, the loop
    sleeps each advised wait in turn, retries, and returns success after
    `k + 1` requests. -/
theorem requestLoop_429_then_ok (m : ℕ) (resp : ℕ → Resp) :
    ∀ (k fuel a0 : ℕ),
      a0 + k ≤ m →
      (∀ i, a0 < i → i ≤ a0 + k → (resp i).status = 429) →
      200 ≤ (resp (a0 + k + 1)).status → (resp (a0 + k + 1)).status < 300 →
      k + 1 ≤ fuel →
      requestLoop m resp fuel a0
        = some { result := Except.ok (),
                 sleeps := (List.range k).map
                   (fun i => ((advisedWait (resp (a0 + i + 1)) : ℤ) : ℚ)),
                 requests := k + 1 } := by
  intro k
  induction k with
  | zero =>
      intro fuel a0 h1 h2 h3 h4 h5
      rcases fuel with _ | fuel
      · omega
      · simp only [requestLoop]
        rw [if_pos ⟨h3, h4⟩]
        simp
  | succ k ih =>
      intro fuel a0 h1 h2 h3 h4 h5
      rcases fuel with _ | fuel
      · omega
      · have hs : (resp (a0 + 1)).status = 429 := h2 (a0 + 1) (by omega) (by omega)
        simp only [requestLoop, hs]
        rw [if_neg (by norm_num : ¬(200 ≤ 429 ∧ (429 : ℕ) < 300)),
          if_neg (by norm_num : ¬(429 : ℕ) = 401), if_pos trivial,
          if_neg (by omega : ¬m < a0 + 1),
          ih fuel (a0 + 1) (by omega)
            (by intro i hi1 hi2; exact h2 i (by omega) (by omega))
            (by have he : a0 + 1 + k + 1 = a0 + (k + 1) + 1 := by omega
                rw [he]; exact h3)
            (by have he : a0 + 1 + k + 1 = a0 + (k + 1) + 1 := by omega
                rw [he]; exact h4)
            (by omega)]
        have hlist : (List.range (k + 1)).map
              (fun i => ((advisedWait (resp (a0 + i + 1)) : ℤ) : ℚ))
            = ((advisedWait (resp (a0 + 1)) : ℤ) : ℚ)
              :: (List.range k).map
                  (fun i => ((advisedWait (resp (a0 + 1 + i + 1)) : ℤ) : ℚ)) := by
          rw [List.range_succ_eq_map, List.map_cons, List.map_map]
          refine congrArg₂ List.cons rfl ?_
          refine List.map_congr_left ?_
          intro i hi
          have he : a0 + Nat.succ i + 1 = a0 + 1 + i + 1 := by omega
          simp only [Function.comp]
          rw [he]
        rw [hlist]
        simp [Option.map]

/-- When every response up to attempt `m + 1` is rate-limited, the loop
    sleeps the advised waits of attempts `1..m` and raises the definitive
    rate-limit failure at attempt `m + 1`, the first attempt exceeding the
    retry bound. -/
theorem requestLoop_429_exhaust (m : ℕ) (resp : ℕ → Resp)
    (h429 : ∀ i, 1 ≤ i → i ≤ m + 1 → (resp i).status = 429) :
    ∀ (fuel a0 : ℕ), a0 ≤ m → m + 1 ≤ a0 + fuel →
      requestLoop m resp fuel a0
        = some { result := Except.error RErr.rateLimited,
                 sleeps := (List.range (m - a0)).map
                   (fun i => ((advisedWait (resp (a0 + i + 1)) : ℤ) : ℚ)),
                 requests := m + 1 - a0 } := by
  intro fuel
  induction fuel with
  | zero => intro a0 h1 h2; omega
  | succ fuel ih =>
      intro a0 h1 h2
      have hs : (resp (a0 + 1)).status = 429 := h429 (a0 + 1) (by omega) (by omega)
      simp only [requestLoop, hs]
      rw [if_neg (by norm_num : ¬(200 ≤ 429 ∧ (429 : ℕ) < 300)),
        if_neg (by norm_num : ¬(429 : ℕ) = 401), if_pos trivial]
      by_cases hlast : m < a0 + 1
      · have ha0 : a0 = m := by omega
        subst ha0
        rw [if_pos hlast]
        simp
      · rw [if_neg hlast, ih (a0 + 1) (by omega) (by omega)]
        obtain ⟨j, hj⟩ : ∃ j, m - a0 = j + 1 := ⟨m - a0 - 1, by omega⟩
        have hj2 : m - (a0 + 1) = j := by omega
        have hreq : m + 1 - (a0 + 1) + 1 = m + 1 - a0 := by omega
        have hlist : (List.range (m - a0)).map
              (fun i => ((advisedWait (resp (a0 + i + 1)) : ℤ) : ℚ))
            = ((advisedWait (resp (a0 + 1)) : ℤ) : ℚ)
              :: (List.range (m - (a0 + 1))).map
                  (fun i => ((advisedWait (resp (a0 + 1 + i + 1)) : ℤ) : ℚ)) := by
          rw [hj, hj2, List.range_succ_eq_map, List.map_cons, List.map_map]
          refine congrArg₂ List.cons rfl ?_
          refine List.map_congr_left ?_
          intro i hi
          have he : a0 + Nat.succ i + 1 = a0 + 1 + i + 1 := by omega
          simp only [Function.comp]
          rw [he]
        rw [hlist, ← hreq]
        simp [Option.map]

/-- C4: for every venue call and retry bound `m`: if the first `k ≤ m`
    responses are rate-limited and the next succeeds, the client sleeps
    exactly the server-advised wait of each rate-limited response
    (`Retry-After` header, else body `wait` field, else 1) and retries,
    returning success after `k + 1` requests; and if every response through
    attempt `m + 1` is rate-limited, the client raises the definitive
    rate-limit failure exactly when the attempt count first exceeds `m`,
    after `m + 1` requests and `m` advised sleeps. -/
theorem ritRequest_rate_limit_policy (m : ℕ) (resp : ℕ → Resp) :
    (∀ k : ℕ, k ≤ m →
      (∀ i, 1 ≤ i → i ≤ k → (resp i).status = 429) →
      200 ≤ (resp (k + 1)).status → (resp (k + 1)).status < 300 →
      ritRequest m resp
        = some { result := Except.ok (),
                 sleeps := (List.range k).map
                   (fun i => ((advisedWait (resp (i + 1)) : ℤ) : ℚ)),
                 requests := k + 1 })
    ∧ ((∀ i, 1 ≤ i → i ≤ m + 1 → (resp i).status = 429) →
      ritRequest m resp
        = some { result := Except.error RErr.rateLimited,
                 sleeps := (List.range m).map
                   (fun i => ((advisedWait (resp (i + 1)) : ℤ) : ℚ)),
                 requests := m + 1 }) := by
  constructor
  · intro k hk h429 h2a h2b
    have h := requestLoop_429_then_ok m resp k (m + 1) 0 (by omega)
      (by intro i hi1 hi2; exact h429 i (by omega) (by omega))
      (by simpa using h2a) (by simpa using h2b) (by omega)
    simpa [ritRequest] using h
  · intro h429
    have h := requestLoop_429_exhaust m resp h429 (m + 1) 0 (by omega) (by omega)
    simpa [ritRequest] using h

/-- Witness for C4: with retry bound 4 under `respScenario`, the client
    sleeps exactly 2 time units, retries, and succeeds on the second
    request. -/
theorem ritRequest_rate_limit_policy_witness :
    ritRequest 4 respScenario
      = some { result := Except.ok (),
               sleeps := (List.range 1).map
                 (fun i => ((advisedWait (respScenario (i + 1)) : ℤ) : ℚ)),
               requests := 2 }
    ∧ (List.range 1).map (fun i => ((advisedWait (respScenario (i + 1)) : ℤ) : ℚ))
      = [(2 : ℚ)] :=
  ⟨(ritRequest_rate_limit_policy 4 respScenario).1 1 (by norm_num)
    (by
      intro i hi1 hi2
      have he : i = 1 := by omega
      subst he
      rfl)
    (by norm_num [respScenario]) (by norm_num [respScenario]),
   by norm_num [List.range_succ, respScenario, advisedWait]⟩

end ETFArbitrage

namespace EtfArbBot

/-- The clip decomposition of a quantity sums back to that quantity. -/
theorem clipsOfAux_sum (mx : ℕ) (hmx : 1 ≤ mx) :
    ∀ (fuel rem : ℕ), rem ≤ fuel → (clipsOfAux mx fuel rem).sum = rem := by
  intro fuel
  induction fuel with
  | zero => intro rem h; simp [clipsOfAux]; omega
  | succ fuel ih =>
      intro rem h
      by_cases h0 : rem = 0
      · simp [clipsOfAux, h0]
      · have h1 : 1 ≤ min rem mx := by omega
        simp only [clipsOfAux, h0, if_false, List.sum_cons]
        rw [ih (rem - min rem mx) (by omega)]
        omega

/-- The clip decomposition sums to the remaining quantity. -/
theorem clipsOf_sum (mx : ℕ) (hmx : 1 ≤ mx) (rem : ℕ) :
    (clipsOf mx rem).sum = rem :=
  clipsOfAux_sum mx hmx rem rem le_rfl

/-- The first clip of a nonzero remainder is `min rem mx`. -/
theorem clipsOf_head (mx rem : ℕ) (h : 0 < rem) :
    (clipsOf mx rem).head? = some (min rem mx) := by
  rcases rem with _ | r
  · omega
  · simp [clipsOf, clipsOfAux]

/-- Splitting an attempt off the executed-clip total. -/
theorem execSum_cons (a : Attempt) (l : List Attempt) :
    execSum (a :: l) = (if a.ok = true then a.clip else 0) + execSum l := by
  by_cases h : a.ok = true <;> simp [execSum, List.filter_cons, h]

/-- Accounting invariant of `place_sliced_orders`: the executed clips plus
    the final remaining quantity always equal the initial quantity. -/
theorem psoLoop_execSum (mx : ℕ) (limitFirst : Bool) (lok mok : ℕ → Bool) :
    ∀ (fuel rem i : ℕ),
      execSum (psoLoop mx limitFirst lok mok fuel rem i).1
        + (psoLoop mx limitFirst lok mok fuel rem i).2.1 = rem := by
  intro fuel
  induction fuel with
  | zero => intro rem i; simp [psoLoop, execSum]
  | succ fuel ih =>
      intro rem i
      by_cases h0 : rem = 0
      · simp [psoLoop, h0, execSum]
      · have hclip : min rem mx ≤ rem := min_le_left _ _
        cases hlf : limitFirst with
        | false =>
            subst hlf
            by_cases hm : mok i = true
            · have hrec := ih (rem - min rem mx) (i + 1)
              simp only [psoLoop, h0, if_false, hm, if_true, Bool.false_eq_true,
                execSum_cons] at hrec ⊢
              omega
            · simp [psoLoop, h0, hm, execSum]
        | true =>
            subst hlf
            by_cases hl : lok i = true
            · have hrec := ih (rem - min rem mx) (i + 1)
              simp only [psoLoop, h0, if_false, hl, if_true, execSum_cons] at hrec ⊢
              omega
            · by_cases hm : mok i = true
              · have hrec := ih (rem - min rem mx) (i + 1)
                simp only [psoLoop, h0, if_false, hl, hm, if_true,
                  Bool.false_eq_true, execSum_cons] at hrec ⊢
                omega
              · simp [psoLoop, h0, hl, hm, execSum]

/-- Every failed limit attempt in the trace is immediately followed by a
    market attempt for the same clip. -/
theorem psoLoop_limit_fallback (mx : ℕ) (limitFirst : Bool) (lok mok : ℕ → Bool) :
    ∀ (fuel rem i n : ℕ) (a : Attempt),
      (psoLoop mx limitFirst lok mok fuel rem i).1.get? n = some a →
      a.kind = OrderKind.limit → a.ok = false →
      ∃ b : Attempt,
        (psoLoop mx limitFirst lok mok fuel rem i).1.get? (n + 1) = some b
        ∧ b.kind = OrderKind.market ∧ b.clip = a.clip := by
  intro fuel
  induction fuel with
  | zero => intro rem i n a ha _ _; simp [psoLoop] at ha
  | succ fuel ih =>
      intro rem i n a ha hk hok
      by_cases h0 : rem = 0
      · simp [psoLoop, h0] at ha
      · cases hlf : limitFirst with
        | false =>
          subst hlf
          by_cases hm : mok i = true
          · simp only [psoLoop, h0, if_false, hm, if_true, Bool.false_eq_true] at ha ⊢
            rcases n with _ | n
            · rw [List.get?_cons_zero] at ha
              injection ha with ha
              subst ha
              simp at hk
            · rw [List.get?_cons_succ] at ha
              rw [List.get?_cons_succ]
              exact ih _ _ n a ha hk hok
          · simp only [psoLoop, h0, if_false, hm, Bool.false_eq_true] at ha ⊢
            rcases n with _ | n
            · rw [List.get?_cons_zero] at ha
              injection ha with ha
              subst ha
              simp at hk
            · rw [List.get?_cons_succ, List.get?_nil] at ha
              cases ha
        | true =>
          subst hlf
          by_cases hl : lok i = true
          · simp only [psoLoop, h0, if_false, hl, if_true] at ha ⊢
            rcases n with _ | n
            · rw [List.get?_cons_zero] at ha
              injection ha with ha
              subst ha
              simp at hok
            · rw [List.get?_cons_succ] at ha
              rw [List.get?_cons_succ]
              exact ih _ _ n a ha hk hok
          · by_cases hm : mok i = true
            · simp only [psoLoop, h0, if_false, hl, hm, if_true,
                Bool.false_eq_true] at ha ⊢
              rcases n with _ | n
              · rw [List.get?_cons_zero] at ha
                injection ha with ha
                subst ha
                exact ⟨⟨.market, min rem mx, true⟩, by rw [List.get?_cons_succ, List.get?_cons_zero], rfl, rfl⟩
              · rcases n with _ | n
                · rw [List.get?_cons_succ, List.get?_cons_zero] at ha
                  injection ha with ha
                  subst ha
                  simp at hk
                · rw [List.get?_cons_succ, List.get?_cons_succ] at ha
                  rw [List.get?_cons_succ, List.get?_cons_succ]
                  exact ih _ _ n a ha hk hok
            · simp only [psoLoop, h0, if_false, if_true, hl, hm, Bool.false_eq_true] at ha ⊢
              rcases n with _ | n
              · rw [List.get?_cons_zero] at ha
                injection ha with ha
                subst ha
                exact ⟨⟨.market, min rem mx, false⟩, by rw [List.get?_cons_succ, List.get?_cons_zero], rfl, rfl⟩
              · rcases n with _ | n
                · rw [List.get?_cons_succ, List.get?_cons_zero] at ha
                  injection ha with ha
                  subst ha
                  simp at hk
                · rw [List.get?_cons_succ, List.get?_cons_succ, List.get?_nil] at ha
                  cases ha

/-- When the limit-first loop aborts, the clip named in its abort warning
    is the failing clip `min remaining mx`, its trace ends with the failing
    limit/market pair for that clip, and the final remainder is positive. -/
theorem psoLoop_abort_shape (mx : ℕ) (lok mok : ℕ → Bool) :
    ∀ (fuel rem i : ℕ) (c : ℕ),
      (psoLoop mx true lok mok fuel rem i).2.2 = some c →
      ∃ pre : List Attempt,
        (psoLoop mx true lok mok fuel rem i).1
          = pre ++ [⟨.limit, c, false⟩, ⟨.market, c, false⟩]
        ∧ c = min (psoLoop mx true lok mok fuel rem i).2.1 mx
        ∧ 0 < (psoLoop mx true lok mok fuel rem i).2.1 := by
  intro fuel
  induction fuel with
  | zero => intro rem i c h; simp [psoLoop] at h
  | succ fuel ih =>
      intro rem i c h
      by_cases h0 : rem = 0
      · simp [psoLoop, h0] at h
      · by_cases hl : lok i = true
        · simp only [psoLoop, h0, if_false, if_true, hl] at h ⊢
          obtain ⟨pre, h1, h2, h3⟩ := ih (rem - min rem mx) (i + 1) c h
          exact ⟨⟨.limit, min rem mx, true⟩ :: pre, by rw [List.cons_append, h1], h2, h3⟩
        · by_cases hm : mok i = true
          · simp only [psoLoop, h0, if_false, hl, hm, if_true,
              Bool.false_eq_true] at h ⊢
            obtain ⟨pre, h1, h2, h3⟩ := ih (rem - min rem mx) (i + 1) c h
            exact ⟨⟨.limit, min rem mx, false⟩ :: ⟨.market, min rem mx, true⟩ :: pre,
              by rw [List.cons_append, List.cons_append, h1], h2, h3⟩
          · simp only [psoLoop, h0, if_false, if_true, hl, hm, Bool.false_eq_true,
              Option.some.injEq] at h ⊢
            subst h
            exact ⟨[], rfl, rfl, by omega⟩

/-- In `place_sliced_orders` with limit-first enabled, every failed
    passive clip is immediately retried as an aggressive (market) order of
    the same size; and when that aggressive attempt also fails the call
    stops: its trace ends at the failing pair, whose clip is the quantity
    named in the abort warning, the loop's final `remaining` is positive
    and equals the sum of the deterministic clips from the failing clip
    onward, and executed clips plus that remaining account exactly for the
    requested quantity.  (These are the parts of the slicer contract the
    code does honor; what it never does is report that remaining quantity
    — see `placeSlicedOrders_unreported_remainder`.) -/
theorem placeSlicedOrders_fallback_and_accounting (mx : ℕ) (hmx : 1 ≤ mx)
    (lok mok : ℕ → Bool) (qty : ℤ) :
    (∀ (n : ℕ) (a : Attempt),
      (placeSlicedOrders mx true lok mok qty).1.get? n = some a →
      a.kind = OrderKind.limit → a.ok = false →
      ∃ b : Attempt,
        (placeSlicedOrders mx true lok mok qty).1.get? (n + 1) = some b
        ∧ b.kind = OrderKind.market ∧ b.clip = a.clip)
    ∧ (∀ c : ℕ, (placeSlicedOrders mx true lok mok qty).2.2 = some c →
      ∃ pre : List Attempt,
        (placeSlicedOrders mx true lok mok qty).1
          = pre ++ [⟨.limit, c, false⟩, ⟨.market, c, false⟩]
        ∧ 0 < (placeSlicedOrders mx true lok mok qty).2.1
        ∧ (clipsOf mx (placeSlicedOrders mx true lok mok qty).2.1).head? = some c
        ∧ (placeSlicedOrders mx true lok mok qty).2.1
            = (clipsOf mx (placeSlicedOrders mx true lok mok qty).2.1).sum
        ∧ execSum (placeSlicedOrders mx true lok mok qty).1
            + (placeSlicedOrders mx true lok mok qty).2.1 = qty.natAbs) := by
  constructor
  · intro n a ha hk hok
    exact psoLoop_limit_fallback mx true lok mok _ _ _ n a ha hk hok
  · intro c h
    simp only [placeSlicedOrders] at h ⊢
    obtain ⟨pre, h1, h2, h3⟩ := psoLoop_abort_shape mx lok mok _ _ _ c h
    refine ⟨pre, h1, h3, ?_, (clipsOf_sum mx hmx _).symm,
      psoLoop_execSum mx true lok mok _ _ _⟩
    rw [clipsOf_head mx _ h3, h2]

/-- C3 (code bug): `place_sliced_orders` evaluated at the failing input —
    25000 shares requested with `MAX_ORDER = 10000`, the first clip's
    limit order and its market fallback both failing.  The call stops
    after the failing pair with `remaining = 25000` unexecuted, which is
    the sum of all clips from the failing clip onward
    (`clipsOf 10000 25000 = [10000, 10000, 5000]`), yet the only quantity
    the code emits is the failing clip 10000 in its abort warning
    (`[WARN] Order failed for ... 10000. Aborting slice.`), and the
    function returns `None` — so the 25000-share remainder is never
    reported, and 10000 ≠ 25000 shows the reported quantity is not the
    remainder the claim requires.  The other slicer the claim cites,
    `Executor.slice_and_execute`, performs no aggressive fallback at all:
    its first failed (passive) submission ends the call with nothing
    executed, as its evaluation at the same quantity shows. -/
theorem placeSlicedOrders_unreported_remainder :
    placeSlicedOrders 10000 true (fun _ => false) (fun _ => false) 25000
      = ([⟨OrderKind.limit, 10000, false⟩, ⟨OrderKind.market, 10000, false⟩],
          25000, some 10000)
    ∧ clipsOf 10000 25000 = [10000, 10000, 5000]
    ∧ (clipsOf 10000 25000).sum = 25000
    ∧ (10000 : ℕ) ≠ 25000
    ∧ ETFArbitrage.sliceAndExecute 2000 10000 (fun _ => false) 25000
        = ([], 25000, true) :=
  ⟨rfl, rfl, rfl, by decide, rfl⟩

/-- Counterexample to C8: a pending tender for an instrument other than
    the configured composite (`"BULL"` here) is neither accepted nor
    declined — the engine issues no venue call at all, resolving the offer
    by silence. -/
theorem evaluateAndMaybeAcceptTender_silent_ignore :
    evaluateAndMaybeAcceptTender 25 1 (4 / 100) ⟨7, "BULL", 10, 100, "SELL"⟩ true
      = (false, []) := rfl

/-- C8 (amended): for tenders on the configured composite instrument whose
    accept call does not itself fail, every non-accepted offer receives an
    explicit decline call; tenders for any other instrument are ignored
    with no venue call at all. -/
theorem evaluateAndMaybeAcceptTender_decline_policy (fvCad fx spreadCad : ℚ)
    (t : TenderFields) (htk : t.tkr = "RITC") :
    ((evaluateAndMaybeAcceptTender fvCad fx spreadCad t true).1 = false →
      (evaluateAndMaybeAcceptTender fvCad fx spreadCad t true).2
        = [TenderCall.decline t.tid])
    ∧ (∀ (t2 : TenderFields) (acceptOk : Bool), t2.tkr ≠ "RITC" →
        evaluateAndMaybeAcceptTender fvCad fx spreadCad t2 acceptOk = (false, [])) := by
  constructor
  · intro h
    simp only [evaluateAndMaybeAcceptTender, htk, ne_eq, not_true_eq_false,
      if_false, ite_false] at h ⊢
    split_ifs at h ⊢ <;> simp_all
  · intro t2 acceptOk h2
    simp [evaluateAndMaybeAcceptTender, h2]

/-- Witness for C8's amended claim: an RITC tender with negative edge
    (fair value 25 CAD, tender 30 CAD, counterparty sells) is declined with
    an explicit decline call. -/
theorem evaluateAndMaybeAcceptTender_decline_policy_witness :
    (evaluateAndMaybeAcceptTender 25 1 (4 / 100) ⟨9, "RITC", 30, 100, "SELL"⟩ true).2
      = [TenderCall.decline 9] :=
  (evaluateAndMaybeAcceptTender_decline_policy 25 1 (4 / 100)
      ⟨9, "RITC", 30, 100, "SELL"⟩ rfl).1
    (by norm_num [evaluateAndMaybeAcceptTender])

/-- The conversion loop performs some number `n` of conversions, each
    removing one batch, and returns the exact remainder. -/
theorem unwindConvLoop_spec (batch : ℕ) (convOk : ℕ → Bool) :
    ∀ (fuel todo k : ℕ), ∃ n : ℕ,
      unwindConvLoop batch convOk fuel todo k = (k + n, todo - batch * n)
      ∧ batch * n ≤ todo := by
  intro fuel
  induction fuel with
  | zero => intro todo k; exact ⟨0, by simp [unwindConvLoop], by simp⟩
  | succ fuel ih =>
      intro todo k
      by_cases hbt : batch ≤ todo
      · by_cases hc : convOk k = true
        · obtain ⟨n, h1, h2⟩ := ih (todo - batch) (k + 1)
          have hmul : batch * (n + 1) = batch * n + batch := by ring
          refine ⟨n + 1, ?_, by omega⟩
          simp only [unwindConvLoop, hbt, if_true, hc, h1, Prod.mk.injEq]
          omega
        · exact ⟨0, by simp [unwindConvLoop, hbt, hc], by simp⟩
      · exact ⟨0, by simp [unwindConvLoop, hbt], by simp⟩

/-- A quantity below one batch is returned untouched by the loop. -/
theorem unwindConvLoop_lt (batch : ℕ) (convOk : ℕ → Bool) :
    ∀ (fuel todo k : ℕ), todo < batch →
      unwindConvLoop batch convOk fuel todo k = (k, todo) := by
  intro fuel todo k h
  cases fuel with
  | zero => rfl
  | succ fuel => simp [unwindConvLoop, Nat.not_le.mpr h]

/-- With a positive batch, all conversions succeeding and fuel at least the
    quantity, the loop stops only once less than one batch remains. -/
theorem unwindConvLoop_all_ok_lt (batch : ℕ) (hb : 0 < batch) (convOk : ℕ → Bool)
    (hok : ∀ k, convOk k = true) :
    ∀ (fuel todo k : ℕ), todo ≤ fuel →
      (unwindConvLoop batch convOk fuel todo k).2 < batch := by
  intro fuel
  induction fuel with
  | zero => intro todo k h; simp [unwindConvLoop]; omega
  | succ fuel ih =>
      intro todo k h
      by_cases hbt : batch ≤ todo
      · simp only [unwindConvLoop, hbt, if_true, hok k]
        exact ih (todo - batch) (k + 1) (by omega)
      · simp only [unwindConvLoop, hbt, if_false]
        omega

/-- C2: when the unwind-cost comparison favors the converter, a residual
    position of exactly 2.5 conversion batches (2·batch + r with
    0 < r < batch) yields exactly 2 conversion-block invocations and hands
    the remaining r shares to the order slicer; any position smaller than
    one batch goes straight to the slicer with no conversion; and for
    every position and every conversion oracle, the converted blocks plus
    the quantity handed to the slicer account for the whole position. -/
theorem unwindInventory_conversion_blocks (spreadCad : ℚ)
    (hpref : shouldUseConverter spreadCad = true) (convOk : ℕ → Bool) :
    (∀ (r : ℕ) (pos : ℤ), pos.natAbs = 2 * CONVERTER_BATCH + r →
      0 < r → r < CONVERTER_BATCH → (∀ k, convOk k = true) →
      unwindInventory spreadCad convOk pos = (2, r))
    ∧ (∀ pos : ℤ, pos.natAbs < CONVERTER_BATCH →
        unwindInventory spreadCad convOk pos = (0, pos.natAbs))
    ∧ (∀ pos : ℤ,
        CONVERTER_BATCH * (unwindInventory spreadCad convOk pos).1
          + (unwindInventory spreadCad convOk pos).2 = pos.natAbs) := by
  have hb : 0 < CONVERTER_BATCH := by norm_num [CONVERTER_BATCH]
  refine ⟨?_, ?_, ?_⟩
  · intro r pos hpos hr0 hrb hok
    have hA : pos.natAbs = 20000 + r := by simpa [CONVERTER_BATCH] using hpos
    have hrb10 : r < 10000 := by simpa [CONVERTER_BATCH] using hrb
    have hpz : pos ≠ 0 := by
      intro hz
      rw [hz] at hA
      simp at hA
      omega
    obtain ⟨n, h1, h2⟩ :=
      unwindConvLoop_spec CONVERTER_BATCH convOk pos.natAbs pos.natAbs 0
    have h3 := unwindConvLoop_all_ok_lt CONVERTER_BATCH hb convOk hok
      pos.natAbs pos.natAbs 0 le_rfl
    rw [h1] at h3
    have h2' : 10000 * n ≤ pos.natAbs := by simpa [CONVERTER_BATCH] using h2
    have h3' : pos.natAbs - 10000 * n < 10000 := by simpa [CONVERTER_BATCH] using h3
    have hn : n = 2 := by omega
    subst hn
    simp only [unwindInventory]
    rw [if_neg hpz, if_pos hpref, h1, Prod.mk.injEq]
    constructor
    · omega
    · simp only [CONVERTER_BATCH]
      omega
  · intro pos hlt
    by_cases hpz : pos = 0
    · subst hpz
      simp [unwindInventory]
    · simp only [unwindInventory]
      rw [if_neg hpz, if_pos hpref,
        unwindConvLoop_lt CONVERTER_BATCH convOk pos.natAbs pos.natAbs 0 hlt]
  · intro pos
    by_cases hpz : pos = 0
    · subst hpz
      simp [unwindInventory]
    · obtain ⟨n, h1, h2⟩ :=
        unwindConvLoop_spec CONVERTER_BATCH convOk pos.natAbs pos.natAbs 0
      have hval : unwindInventory spreadCad convOk pos
          = (n, pos.natAbs - CONVERTER_BATCH * n) := by
        simp only [unwindInventory]
        rw [if_neg hpz, if_pos hpref, h1]
        simp
      rw [hval]
      simp only [CONVERTER_BATCH] at h2 ⊢
      omega

/-- Witness for C2: with a 0.30 CAD spread (so conversion is the cheaper
    unwind), a long position of 25000 shares (2.5 batches of 10000)
    converts exactly 2 blocks and hands 5000 shares to the slicer, while a
    300-share position goes straight to the slicer. -/
theorem unwindInventory_conversion_blocks_witness :
    unwindInventory (3 / 10) (fun _ => true) 25000 = (2, 5000)
    ∧ unwindInventory (3 / 10) (fun _ => true) 300 = (0, (300 : ℤ).natAbs) :=
  ⟨(unwindInventory_conversion_blocks (3 / 10)
      (by
        simp only [shouldUseConverter, decide_eq_true_eq, perShareUnwindCostEtf,
          CONVERTER_COST_PER_SHARE, FEE_MARKET_PER_SHARE]
        norm_num)
      (fun _ => true)).1 5000 25000 (by norm_num [CONVERTER_BATCH]) (by norm_num)
      (by norm_num [CONVERTER_BATCH]) (fun _ => rfl),
   (unwindInventory_conversion_blocks (3 / 10)
      (by
        simp only [shouldUseConverter, decide_eq_true_eq, perShareUnwindCostEtf,
          CONVERTER_COST_PER_SHARE, FEE_MARKET_PER_SHARE]
        norm_num)
      (fun _ => true)).2.1 300 (by norm_num [CONVERTER_BATCH])⟩

end EtfArbBot
